import Mathlib

/-!
Verification of the dependency-tree core: the directed-graph engine
(`transpose`, `manyWalkDfs`), the query layer (`getDependencies`,
`getReferences`), the resolution cascade (`resolveAndCollect`), the driving
loop (`gather`) and the directive scanner (`getDirectives`).

JavaScript `Map` and `Set` values are modelled as insertion-ordered
association lists (`List (T × List T)`) and duplicate-free lists: `Map.set`
on a fresh key appends at the end, `Map.set` on a present key updates the
binding in place, and `Set.add` appends unless the element is present, which
is exactly the iteration order JS guarantees.  External libraries (the
regular-expression engine, the XML parser, `enhanced-resolve`,
`builtin-modules`) are passed in as parameters, mirroring how the source
injects them.
-/

set_option linter.unusedSectionVars false
set_option linter.unusedVariables false

namespace DepTree

variable {T : Type} [DecidableEq T]

/-- JS `Set.prototype.add`: appends the element unless it is already a member. -/
def setAdd (s : List T) (x : T) : List T := if x ∈ s then s else s ++ [x]

/-- JS `Map.prototype.get` on an insertion-ordered association list. -/
def mapGet : List (T × List T) → T → Option (List T)
  | [], _ => none
  | (k, v) :: rest, n => if k = n then some v else mapGet rest n

/-- The update both `DirectedGraph.transpose` and `resolveAndCollect` perform on a
map of sets: `m.has(k) ? m.get(k).add(v) : m.set(k, new Set([v]))` (equally,
`(m.get(k) || new Set()).add(v); m.set(k, ...)`): the value `v` is added to the
set bound to `k`, the binding being created at the end of the map when absent. -/
def mapAddEdge : List (T × List T) → T → T → List (T × List T)
  | [], k, v => [(k, [v])]
  | (k2, s) :: rest, k, v =>
      if k2 = k then (k2, setAdd s v) :: rest else (k2, s) :: mapAddEdge rest k v

/-- JS `Map.prototype.set`: replaces the binding in place, or appends it. -/
def mapSet : List (T × List T) → T → List T → List (T × List T)
  | [], k, v => [(k, v)]
  | (k2, s) :: rest, k, v =>
      if k2 = k then (k2, v) :: rest else (k2, s) :: mapSet rest k v

/-- Successors of a node: `this.edges.get(node)`, the absence of a binding
meaning "zero out-edges". -/
def succsOf (edges : List (T × List T)) (n : T) : List T := (mapGet edges n).getD []

/-- The edge relation of an edge map: `b` is a direct successor of `a`. -/
def hasEdge (edges : List (T × List T)) (a b : T) : Prop := b ∈ succsOf edges a

instance (edges : List (T × List T)) (a b : T) : Decidable (hasEdge edges a b) := by
  unfold hasEdge; infer_instance

/-- All directed edge pairs `(source, target)` of an edge map. -/
def edgePairs : List (T × List T) → List (T × T)
  | [] => []
  | (k, s) :: rest => s.map (fun b => (k, b)) ++ edgePairs rest

/-- Keys of an edge map, in insertion order. -/
def keysOf (m : List (T × List T)) : List T := m.map Prod.fst

/-- Inner loop of `DirectedGraph.transpose`: adds the reversed edge
`endpointNode -> node` for every `endpointNode` of one adjacency set. -/
def transposeInner (node : T) (inverted : List (T × List T)) (endpoints : List T) :
    List (T × List T) :=
  endpoints.foldl (fun inv ep => mapAddEdge inv ep node) inverted

/-- `DirectedGraph.transpose`: materializes a new inverted edge map, every edge
`(a, b)` of the receiver becoming `(b, a)`. -/
def transpose (edges : List (T × List T)) : List (T × List T) :=
  edges.foldl (fun inverted p => transposeInner p.1 inverted p.2) []

theorem mem_setAdd {s : List T} {v x : T} : x ∈ setAdd s v ↔ x = v ∨ x ∈ s := by
  unfold setAdd
  split <;> rename_i h
  · constructor
    · exact fun hx => Or.inr hx
    · rintro (rfl | hx) <;> [exact h; exact hx]
  · simp only [List.mem_append, List.mem_singleton]
    tauto

theorem mapGet_mapAddEdge_self (m : List (T × List T)) (k v : T) :
    mapGet (mapAddEdge m k v) k = some (setAdd ((mapGet m k).getD []) v) := by
  induction m with
  | nil => simp [mapAddEdge, mapGet, setAdd]
  | cons p rest ih =>
      obtain ⟨k2, s⟩ := p
      by_cases h : k2 = k
      · subst h; simp [mapAddEdge, mapGet]
      · simp [mapAddEdge, mapGet, h, ih]

theorem mapGet_mapAddEdge_ne (m : List (T × List T)) {k k2 : T} (v : T) (h : k2 ≠ k) :
    mapGet (mapAddEdge m k v) k2 = mapGet m k2 := by
  induction m with
  | nil => simp [mapAddEdge, mapGet, Ne.symm h]
  | cons p rest ih =>
      obtain ⟨k3, s⟩ := p
      by_cases h3 : k3 = k
      · simp [mapAddEdge, h3, mapGet, Ne.symm h]
      · by_cases h2 : k3 = k2 <;> simp [mapAddEdge, mapGet, h3, h2, h, ih]

theorem mem_edgePairs_iff {m : List (T × List T)} {p : T × T} :
    p ∈ edgePairs m ↔ ∃ q ∈ m, p.1 = q.1 ∧ p.2 ∈ q.2 := by
  induction m with
  | nil => simp [edgePairs]
  | cons q rest ih =>
      obtain ⟨k, s⟩ := q
      obtain ⟨a, b⟩ := p
      simp only [edgePairs, List.mem_append, List.mem_map, ih, List.mem_cons]
      constructor
      · rintro (⟨b2, hb2, heq⟩ | ⟨q, hq, h1, h2⟩)
        · exact ⟨(k, s), Or.inl rfl, by cases heq; exact ⟨rfl, hb2⟩⟩
        · exact ⟨q, Or.inr hq, h1, h2⟩
      · rintro ⟨q, (rfl | hq), h1, h2⟩
        · exact Or.inl ⟨b, h2, by simp_all⟩
        · exact Or.inr ⟨q, hq, h1, h2⟩

theorem mem_edgePairs_mapAddEdge {m : List (T × List T)} {k v : T} {p : T × T} :
    p ∈ edgePairs (mapAddEdge m k v) ↔ p = (k, v) ∨ p ∈ edgePairs m := by
  induction m with
  | nil =>
      obtain ⟨a, b⟩ := p
      simp [mapAddEdge, edgePairs, Prod.ext_iff]
  | cons q rest ih =>
      obtain ⟨k2, s⟩ := q
      obtain ⟨a, b⟩ := p
      by_cases h : k2 = k
      · subst h
        simp only [mapAddEdge, if_pos rfl, edgePairs, List.mem_append, List.mem_map]
        constructor
        · rintro (⟨b2, hb2, heq⟩ | hrest)
          · cases heq
            rcases mem_setAdd.mp hb2 with rfl | hb
            · exact Or.inl rfl
            · exact Or.inr (Or.inl ⟨b, hb, rfl⟩)
          · exact Or.inr (Or.inr hrest)
        · rintro (heq | (⟨b2, hb2, heq⟩ | hrest))
          · cases heq
            exact Or.inl ⟨v, mem_setAdd.mpr (Or.inl rfl), rfl⟩
          · cases heq
            exact Or.inl ⟨b, mem_setAdd.mpr (Or.inr hb2), rfl⟩
          · exact Or.inr hrest
      · simp only [mapAddEdge, if_neg h, edgePairs, List.mem_append, ih]
        tauto

theorem mem_edgePairs_transposeInner {node : T} {targets : List T}
    {init : List (T × List T)} {p : T × T} :
    p ∈ edgePairs (transposeInner node init targets) ↔
      (p.1 ∈ targets ∧ p.2 = node) ∨ p ∈ edgePairs init := by
  induction targets generalizing init with
  | nil => simp [transposeInner]
  | cons t ts ih =>
      obtain ⟨a, b⟩ := p
      simp only [transposeInner, List.foldl_cons] at *
      rw [ih, mem_edgePairs_mapAddEdge]
      simp only [List.mem_cons, Prod.ext_iff]
      tauto

theorem mem_map_pair {k b a : T} {s : List T} :
    (b, a) ∈ s.map (fun x => (k, x)) ↔ b = k ∧ a ∈ s := by
  rw [List.mem_map]
  constructor
  · rintro ⟨x, hx, heq⟩
    injection heq with h1 h2
    exact ⟨h1.symm, h2 ▸ hx⟩
  · rintro ⟨rfl, ha⟩
    exact ⟨a, ha, rfl⟩

theorem mem_edgePairs_transposeAux {l : List (T × List T)} {init : List (T × List T)}
    {p : T × T} :
    p ∈ edgePairs (l.foldl (fun inverted q => transposeInner q.1 inverted q.2) init) ↔
      (p.2, p.1) ∈ edgePairs l ∨ p ∈ edgePairs init := by
  induction l generalizing init with
  | nil => simp [edgePairs]
  | cons q rest ih =>
      obtain ⟨k, s⟩ := q
      obtain ⟨a, b⟩ := p
      simp only [List.foldl_cons, ih, mem_edgePairs_transposeInner, edgePairs,
        List.mem_append, mem_map_pair]
      tauto

theorem mem_edgePairs_transpose {m : List (T × List T)} {p : T × T} :
    p ∈ edgePairs (transpose m) ↔ (p.2, p.1) ∈ edgePairs m := by
  unfold transpose
  rw [mem_edgePairs_transposeAux]
  simp [edgePairs]

theorem mem_keysOf_mapAddEdge {m : List (T × List T)} {k v x : T}
    (hx : x ∈ keysOf (mapAddEdge m k v)) : x ∈ keysOf m ∨ x = k := by
  induction m with
  | nil =>
      right
      simpa [mapAddEdge, keysOf] using hx
  | cons q rest ih =>
      obtain ⟨k2, s⟩ := q
      by_cases h2 : k2 = k
      · left
        simpa [mapAddEdge, h2, keysOf] using hx
      · simp only [mapAddEdge, if_neg h2, keysOf, List.map_cons, List.mem_cons] at hx ⊢
        rcases hx with rfl | hx
        · exact Or.inl (Or.inl rfl)
        · rcases ih hx with hx2 | hx2
          · exact Or.inl (Or.inr hx2)
          · exact Or.inr hx2

theorem keysOf_mapAddEdge_nodup {m : List (T × List T)} {k v : T}
    (h : (keysOf m).Nodup) : (keysOf (mapAddEdge m k v)).Nodup := by
  induction m with
  | nil => simp [mapAddEdge, keysOf]
  | cons q rest ih =>
      obtain ⟨k2, s⟩ := q
      simp only [keysOf, List.map_cons, List.nodup_cons] at h
      by_cases h2 : k2 = k
      · subst h2
        simpa [mapAddEdge, keysOf] using h
      · simp only [mapAddEdge, if_neg h2, keysOf, List.map_cons, List.nodup_cons]
        refine ⟨fun hx => ?_, ih h.2⟩
        rcases mem_keysOf_mapAddEdge hx with hx2 | rfl
        · exact h.1 hx2
        · exact h2 rfl

theorem keysOf_transposeInner_nodup {node : T} {targets : List T}
    {init : List (T × List T)} (h : (keysOf init).Nodup) :
    (keysOf (transposeInner node init targets)).Nodup := by
  induction targets generalizing init with
  | nil => simpa [transposeInner] using h
  | cons t ts ih =>
      simp only [transposeInner, List.foldl_cons]
      exact ih (keysOf_mapAddEdge_nodup h)

theorem keysOf_transpose_nodup (m : List (T × List T)) :
    (keysOf (transpose m)).Nodup := by
  unfold transpose
  suffices h : ∀ init : List (T × List T), (keysOf init).Nodup →
      (keysOf (m.foldl (fun inverted q => transposeInner q.1 inverted q.2) init)).Nodup by
    exact h [] (by simp [keysOf])
  induction m with
  | nil => exact fun init h => h
  | cons q rest ih =>
      intro init h
      exact ih _ (keysOf_transposeInner_nodup h)

theorem fst_mem_keysOf_of_mem_edgePairs {m : List (T × List T)} {p : T × T}
    (h : p ∈ edgePairs m) : p.1 ∈ keysOf m := by
  rcases mem_edgePairs_iff.mp h with ⟨q, hq, h1, _⟩
  exact h1 ▸ List.mem_map.mpr ⟨q, hq, rfl⟩

theorem hasEdge_iff_edgePairs {m : List (T × List T)} (h : (keysOf m).Nodup)
    {a b : T} : hasEdge m a b ↔ (a, b) ∈ edgePairs m := by
  induction m with
  | nil => simp [hasEdge, succsOf, mapGet, edgePairs]
  | cons q rest ih =>
      obtain ⟨k, s⟩ := q
      simp only [keysOf, List.map_cons, List.nodup_cons] at h
      by_cases hk : k = a
      · subst hk
        simp only [hasEdge, succsOf, mapGet, if_pos rfl, Option.getD_some, edgePairs,
          List.mem_append, List.mem_map]
        constructor
        · intro hb
          exact Or.inl ⟨b, hb, rfl⟩
        · rintro (⟨b2, hb2, heq⟩ | hrest)
          · cases heq; exact hb2
          · exact absurd (fst_mem_keysOf_of_mem_edgePairs hrest) h.1
      · simp only [hasEdge, succsOf, mapGet, if_neg hk, edgePairs, List.mem_append,
          List.mem_map]
        rw [← succsOf, ← hasEdge, ih h.2]
        constructor
        · exact Or.inr
        · rintro (⟨b2, _, heq⟩ | hrest)
          · injection heq with h1 h2
            exact absurd h1 hk
          · exact hrest

/-- Edge relations with the same edge-pair sets have the same reachability. -/
theorem reflTransGen_congr {m m2 : List (T × List T)}
    (h : ∀ a b : T, hasEdge m a b ↔ hasEdge m2 a b) {a b : T} :
    Relation.ReflTransGen (hasEdge m) a b ↔ Relation.ReflTransGen (hasEdge m2) a b :=
  ⟨Relation.ReflTransGen.mono (fun x y => (h x y).mp),
   Relation.ReflTransGen.mono (fun x y => (h x y).mpr)⟩

/-- `Stack.addMany`: pushes the values one by one, so the last value ends on top
(the head of the list, the stack top being the head in this model). -/
def stackAddMany (stack : List T) (vals : List T) : List T :=
  vals.foldl (fun s v => v :: s) stack

theorem mem_stackAddMany {stack vals : List T} {x : T} :
    x ∈ stackAddMany stack vals ↔ x ∈ vals ∨ x ∈ stack := by
  induction vals generalizing stack with
  | nil => simp [stackAddMany]
  | cons v vs ih =>
      simp only [stackAddMany, List.foldl_cons] at *
      rw [ih]
      simp only [List.mem_cons]
      tauto

/-- All target nodes of an edge map; a finite universe for the DFS termination
measure. -/
def targetsOf (edges : List (T × List T)) : List T :=
  edges.foldr (fun p acc => p.2 ++ acc) []

theorem succsOf_subset_targetsOf {edges : List (T × List T)} {n y : T}
    (hy : y ∈ succsOf edges n) : y ∈ targetsOf edges := by
  induction edges with
  | nil => simp [succsOf, mapGet] at hy
  | cons p rest ih =>
      obtain ⟨k, s⟩ := p
      simp only [targetsOf, List.foldr_cons, List.mem_append]
      by_cases hk : k = n
      · subst hk
        left
        simpa [succsOf, mapGet] using hy
      · right
        exact ih (by simpa [succsOf, mapGet, hk] using hy)

/-- Number of universe nodes not yet visited; the primary termination measure
of the DFS loop. -/
def unvisitedCount (univ visited : List T) : Nat :=
  (univ.filter (fun x => decide (x ∉ visited))).length

theorem length_filter_mono_of_imp {l : List T} {p q : T → Bool}
    (h : ∀ x ∈ l, p x = true → q x = true) :
    (l.filter p).length ≤ (l.filter q).length := by
  induction l with
  | nil => simp
  | cons a t ih =>
      have ht : ∀ x ∈ t, p x = true → q x = true :=
        fun x hx => h x (List.mem_cons_of_mem _ hx)
      by_cases hp : p a = true
      · simp only [List.filter_cons, hp, h a (List.mem_cons_self _ _) hp, if_true,
          List.length_cons]
        exact Nat.succ_le_succ (ih ht)
      · cases hq : q a
        · simp only [List.filter_cons, hq, Bool.eq_false_iff.mpr hp, if_false]
          exact ih ht
        · simp only [List.filter_cons, hq, Bool.eq_false_iff.mpr hp, if_false, if_true,
            List.length_cons]
          exact le_trans (ih ht) (Nat.le_succ _)

theorem unvisitedCount_cons_lt {univ visited : List T} {node : T}
    (hmem : node ∈ univ) (hnv : node ∉ visited) :
    unvisitedCount univ (node :: visited) < unvisitedCount univ visited := by
  induction univ with
  | nil => cases hmem
  | cons a t ih =>
      unfold unvisitedCount at *
      by_cases ha : a = node
      · subst ha
        have h1 : decide (a ∉ a :: visited) = false := by simp
        have h2 : decide (a ∉ visited) = true := by simpa using hnv
        simp only [List.filter_cons, h1, h2, if_false, if_true, List.length_cons]
        refine Nat.lt_succ_of_le (length_filter_mono_of_imp ?_)
        intro x hx hpx
        simp only [decide_eq_true_eq] at hpx ⊢
        exact fun hxv => hpx (List.mem_cons_of_mem _ hxv)
      · have hmem2 : node ∈ t := by
          rcases List.mem_cons.mp hmem with rfl | h
          · exact absurd rfl ha
          · exact h
        have heq : decide (a ∉ node :: visited) = decide (a ∉ visited) := by
          simp [ha]
        by_cases hv : a ∈ visited
        · have h2 : decide (a ∉ visited) = false := by simpa using hv
          simp only [List.filter_cons, heq, h2, if_false]
          exact ih hmem2
        · have h2 : decide (a ∉ visited) = true := by simpa using hv
          simp only [List.filter_cons, heq, h2, if_true, List.length_cons]
          exact Nat.succ_lt_succ (ih hmem2)

/-- Loop of `DirectedGraph.walkDfs`: `toVisit` is the explicit stack (head is
the stack top), `visited` the injected visited set.  A popped node already in
`visited` is skipped (`continue`); otherwise it is yielded, added to `visited`,
and its successors are pushed (the absence of an adjacency entry meaning zero
out-edges).  Returns the yielded nodes in yield order together with the final
visited set.  The list `univ` and the two subset facts only justify
termination; they do not influence the computed value. -/
def walkDfsAux (edges : List (T × List T)) (univ : List T) :
    (toVisit : List T) → (visited : List T) →
    (∀ x ∈ toVisit, x ∈ univ) →
    (∀ n : T, ∀ y ∈ succsOf edges n, y ∈ univ) →
    List T × List T
  | [], visited, _, _ => ([], visited)
  | node :: rest, visited, hstack, hsuccs =>
      if hv : node ∈ visited then
        walkDfsAux edges univ rest visited
          (fun x hx => hstack x (List.mem_cons_of_mem _ hx)) hsuccs
      else
        let r := walkDfsAux edges univ (stackAddMany rest (succsOf edges node))
          (node :: visited)
          (fun x hx => (mem_stackAddMany.mp hx).elim
            (fun h => hsuccs node x h)
            (fun h => hstack x (List.mem_cons_of_mem _ h)))
          hsuccs
        (node :: r.1, r.2)
  termination_by toVisit visited _ _ => (unvisitedCount univ visited, toVisit.length)
  decreasing_by
  · exact Prod.Lex.right _ (Nat.lt_succ_self _)
  · exact Prod.Lex.left _ _ (unvisitedCount_cons_lt (hstack node (List.mem_cons_self _ _)) hv)

/-- `DirectedGraph.walkDfs`: one depth-first walk from `entrypoint`, with the
shared `visited` set injected so that nodes are visited only once across
multiple walks. -/
def walkDfs (edges : List (T × List T)) (entrypoint : T) (visited : List T) :
    List T × List T :=
  walkDfsAux edges (entrypoint :: targetsOf edges) [entrypoint] visited
    (fun x hx => by
      simp only [List.mem_singleton] at hx
      exact hx ▸ List.mem_cons_self _ _)
    (fun n y hy => List.mem_cons_of_mem _ (succsOf_subset_targetsOf hy))

/-- Iteration of `DirectedGraph.manyWalkDfs`: one walk per entrypoint, in
order, threading the one shared visited set. -/
def manyWalkDfsAux (edges : List (T × List T)) : List T → List T → List T × List T
  | [], visited => ([], visited)
  | e :: es, visited =>
      let r := walkDfs edges e visited
      let rest := manyWalkDfsAux edges es r.2
      (r.1 ++ rest.1, rest.2)

/-- `DirectedGraph.manyWalkDfs`: depth-first walks from each entrypoint in
order, with one fresh shared visited set; returns the yielded node sequence. -/
def manyWalkDfs (edges : List (T × List T)) (entrypoints : List T) : List T :=
  (manyWalkDfsAux edges entrypoints []).1

/-- Invariants of one DFS loop run: the yielded nodes are duplicate-free, new,
and reachable from the stack; the final visited set is the old one plus the
yields, contains every stack element, and is successor-closed off the old
visited set. -/
theorem walkDfsAux_spec {edges : List (T × List T)} {univ : List T} :
    ∀ (toVisit visited : List T) (h1 : ∀ x ∈ toVisit, x ∈ univ)
      (h2 : ∀ n : T, ∀ y ∈ succsOf edges n, y ∈ univ) (out vis : List T),
      walkDfsAux edges univ toVisit visited h1 h2 = (out, vis) →
      out.Nodup ∧ (∀ x ∈ out, x ∉ visited) ∧
      (∀ x, x ∈ vis ↔ x ∈ out ∨ x ∈ visited) ∧
      (∀ s ∈ toVisit, s ∈ vis) ∧
      (∀ x ∈ vis, x ∈ visited ∨ ∀ y, hasEdge edges x y → y ∈ vis) ∧
      (∀ x ∈ out, ∃ s ∈ toVisit, Relation.ReflTransGen (hasEdge edges) s x) := by
  intro toVisit visited h1 h2
  induction toVisit, visited, h1, h2 using walkDfsAux.induct edges univ with
  | case1 _ visited h1 h2 _ =>
      intro out vis heq
      rw [walkDfsAux] at heq
      obtain ⟨rfl, rfl⟩ := Prod.mk.injEq .. ▸ heq
      refine ⟨List.nodup_nil, by simp, by simp, by simp, fun x hx => Or.inl hx, by simp⟩
  | case2 _ node rest visited hstack hsuccs hv _ ih =>
      intro out vis heq
      rw [walkDfsAux, dif_pos hv] at heq
      obtain ⟨n1, n2, n3, n4, n5, n6⟩ := ih out vis heq
      refine ⟨n1, n2, n3, ?_, n5, ?_⟩
      · intro s hs
        rcases List.mem_cons.mp hs with rfl | hs
        · exact (n3 s).mpr (Or.inr hv)
        · exact n4 s hs
      · intro x hx
        obtain ⟨s, hs, hr⟩ := n6 x hx
        exact ⟨s, List.mem_cons_of_mem _ hs, hr⟩
  | case3 _ node rest visited hstack hsuccs hv _ ih =>
      intro out vis heq
      rw [walkDfsAux, dif_neg hv] at heq
      simp only at heq
      obtain ⟨rfl, rfl⟩ := Prod.mk.injEq .. ▸ heq
      obtain ⟨n1, n2, n3, n4, n5, n6⟩ := ih _ _ rfl
      refine ⟨?_, ?_, ?_, ?_, ?_, ?_⟩
      · exact List.nodup_cons.mpr
          ⟨fun hmem => n2 node hmem (List.mem_cons_self _ _), n1⟩
      · intro x hx
        rcases List.mem_cons.mp hx with rfl | hx
        · exact hv
        · exact fun hxv => n2 x hx (List.mem_cons_of_mem _ hxv)
      · intro x
        rw [n3 x]
        simp only [List.mem_cons]
        tauto
      · intro s hs
        rcases List.mem_cons.mp hs with rfl | hs
        · exact (n3 s).mpr (Or.inr (List.mem_cons_self _ _))
        · exact n4 s (mem_stackAddMany.mpr (Or.inr hs))
      · intro x hx
        rcases n5 x hx with hmem | hcl
        · rcases List.mem_cons.mp hmem with rfl | hmem
          · exact Or.inr fun y hy => n4 y (mem_stackAddMany.mpr (Or.inl hy))
          · exact Or.inl hmem
        · exact Or.inr hcl
      · intro x hx
        rcases List.mem_cons.mp hx with rfl | hx
        · exact ⟨x, List.mem_cons_self _ _, Relation.ReflTransGen.refl⟩
        · obtain ⟨s, hs, hr⟩ := n6 x hx
          rcases mem_stackAddMany.mp hs with hs2 | hs2
          · exact ⟨node, List.mem_cons_self _ _, Relation.ReflTransGen.head hs2 hr⟩
          · exact ⟨s, List.mem_cons_of_mem _ hs2, hr⟩

theorem walkDfs_spec {edges : List (T × List T)} {e : T} {visited out vis : List T}
    (heq : walkDfs edges e visited = (out, vis)) :
    out.Nodup ∧ (∀ x ∈ out, x ∉ visited) ∧
    (∀ x, x ∈ vis ↔ x ∈ out ∨ x ∈ visited) ∧ e ∈ vis ∧
    (∀ x ∈ vis, x ∈ visited ∨ ∀ y, hasEdge edges x y → y ∈ vis) ∧
    (∀ x ∈ out, Relation.ReflTransGen (hasEdge edges) e x) := by
  obtain ⟨n1, n2, n3, n4, n5, n6⟩ := walkDfsAux_spec _ _ _ _ out vis heq
  refine ⟨n1, n2, n3, n4 e (List.mem_singleton.mpr rfl), n5, fun x hx => ?_⟩
  obtain ⟨s, hs, hr⟩ := n6 x hx
  rwa [List.mem_singleton.mp hs] at hr

theorem manyWalkDfsAux_spec {edges : List (T × List T)} :
    ∀ (es visited out vis : List T),
      manyWalkDfsAux edges es visited = (out, vis) →
      out.Nodup ∧ (∀ x ∈ out, x ∉ visited) ∧
      (∀ x, x ∈ vis ↔ x ∈ out ∨ x ∈ visited) ∧
      (∀ e ∈ es, e ∈ vis) ∧
      (∀ x ∈ vis, x ∈ visited ∨ ∀ y, hasEdge edges x y → y ∈ vis) ∧
      (∀ x ∈ out, ∃ e ∈ es, Relation.ReflTransGen (hasEdge edges) e x) := by
  intro es
  induction es with
  | nil =>
      intro visited out vis heq
      rw [manyWalkDfsAux] at heq
      obtain ⟨rfl, rfl⟩ := Prod.mk.injEq .. ▸ heq
      exact ⟨List.nodup_nil, by simp, by simp, by simp, fun x hx => Or.inl hx, by simp⟩
  | cons e es ih =>
      intro visited out vis heq
      obtain ⟨w1, w2, hw⟩ : ∃ w1 w2, walkDfs edges e visited = (w1, w2) := ⟨_, _, rfl⟩
      obtain ⟨m1, m2, hm⟩ : ∃ m1 m2, manyWalkDfsAux edges es w2 = (m1, m2) := ⟨_, _, rfl⟩
      rw [manyWalkDfsAux] at heq
      simp only [hw, hm] at heq
      obtain ⟨rfl, rfl⟩ := Prod.mk.injEq .. ▸ heq
      obtain ⟨a1, a2, a3, a4, a5, a6⟩ := walkDfs_spec hw
      obtain ⟨b1, b2, b3, b4, b5, b6⟩ := ih w2 m1 m2 hm
      have hsub : ∀ x ∈ w2, x ∈ m2 := fun x hx => (b3 x).mpr (Or.inr hx)
      refine ⟨?_, ?_, ?_, ?_, ?_, ?_⟩
      · refine List.Nodup.append a1 b1 (List.disjoint_left.mpr ?_)
        exact fun x hx hm1 => b2 x hm1 ((a3 x).mpr (Or.inl hx))
      · intro x hx
        rcases List.mem_append.mp hx with hx | hx
        · exact a2 x hx
        · exact fun hxv => b2 x hx ((a3 x).mpr (Or.inr hxv))
      · intro x
        rw [b3 x, List.mem_append]
        rw [a3 x]
        tauto
      · intro s hs
        rcases List.mem_cons.mp hs with rfl | hs
        · exact hsub s a4
        · exact b4 s hs
      · intro x hx
        rcases b5 x hx with hw2 | hcl
        · rcases a5 x hw2 with hvz | hclw
          · exact Or.inl hvz
          · exact Or.inr fun y hy => hsub y (hclw y hy)
        · exact Or.inr hcl
      · intro x hx
        rcases List.mem_append.mp hx with hx | hx
        · exact ⟨e, List.mem_cons_self _ _, a6 x hx⟩
        · obtain ⟨e2, he2, hr⟩ := b6 x hx
          exact ⟨e2, List.mem_cons_of_mem _ he2, hr⟩

/-- Full characterization of `manyWalkDfs` on a fresh visited set: no
duplicates, and the yields are exactly the nodes reachable from the
entrypoints. -/
theorem manyWalkDfs_spec (edges : List (T × List T)) (es : List T) :
    (manyWalkDfs edges es).Nodup ∧
    ∀ x, x ∈ manyWalkDfs edges es ↔
      ∃ e ∈ es, Relation.ReflTransGen (hasEdge edges) e x := by
  obtain ⟨m1, m2, hm⟩ : ∃ m1 m2, manyWalkDfsAux edges es [] = (m1, m2) := ⟨_, _, rfl⟩
  obtain ⟨b1, b2, b3, b4, b5, b6⟩ := manyWalkDfsAux_spec es [] m1 m2 hm
  have hout : manyWalkDfs edges es = m1 := by rw [manyWalkDfs, hm]
  rw [hout]
  have hclosed : ∀ x ∈ m2, ∀ y, hasEdge edges x y → y ∈ m2 :=
    fun x hx => (b5 x hx).resolve_left (by simp)
  refine ⟨b1, fun x => ⟨b6 x, ?_⟩⟩
  rintro ⟨e, he, hr⟩
  have hx2 : x ∈ m2 := by
    induction hr with
    | refl => exact b4 e he
    | tail hab hbc ih2 => exact hclosed _ ih2 _ hbc
  rcases (b3 x).mp hx2 with hx1 | hx0
  · exact hx1
  · cases hx0

/-- `DependencyTree.findRelatedFiles`: collects every node yielded by
`manyWalkDfs` into a visited set, then deletes all the entrypoints, "since it
does not make sense for a file to be related to itself". -/
def findRelatedFiles (graph : List (T × List T)) (files : List T) : List T :=
  (manyWalkDfs graph files).filter (fun x => decide (x ∉ files))

/-- `DependencyTree.getDependencies`: transitive dependencies of `files` in the
resolved edge map. -/
def getDependencies (fileToDeps : List (T × List T)) (files : List T) : List T :=
  findRelatedFiles fileToDeps files

/-- `DependencyTree.getReferences`: inverts the graph, "because we are
interested in the files that reference the entrypoint files", then walks it. -/
def getReferences (fileToDeps : List (T × List T)) (files : List T) : List T :=
  findRelatedFiles (transpose fileToDeps) files

/-- C1: for every edge map and every list of entrypoint paths,
`DependencyTree.getReferences(edgeMap, entrypoints)` returns exactly the same
set of paths as `DependencyTree.getDependencies` applied to the transposed
edge map (every edge `(a, b)` reversed to `(b, a)`) with the same
entrypoints. -/
theorem getReferences_eq_getDependencies_of_transpose
    (m : List (T × List T)) (S : List T) :
    ∀ x : T, x ∈ getReferences m S ↔ x ∈ getDependencies (transpose m) S :=
  fun _ => Iff.rfl

/-- C2: the set returned by `DependencyTree.getDependencies(edgeMap, S)`
contains no element of `S`, and it is the empty set whenever no path of length
at least 1 leads from any element of `S` to any node. -/
theorem getDependencies_excludes_entrypoints_and_empty_without_paths
    (m : List (T × List T)) (S : List T) :
    (∀ x ∈ S, x ∉ getDependencies m S) ∧
    ((∀ s ∈ S, ∀ t, ¬ Relation.TransGen (hasEdge m) s t) →
      getDependencies m S = []) := by
  constructor
  · intro x hx hmem
    have h := List.of_mem_filter hmem
    simp only [decide_eq_true_eq] at h
    exact h hx
  · intro hnp
    apply List.filter_eq_nil_iff.mpr
    intro x hx
    obtain ⟨e, he, hr⟩ := ((manyWalkDfs_spec m S).2 x).mp hx
    rcases Relation.reflTransGen_iff_eq_or_transGen.mp hr with rfl | htg
    · simp [he]
    · exact absurd htg (hnp e he x)

/-- Witness for C2 at a concrete input: with no edges at all, the entrypoint
is excluded from its own result and the result is empty. -/
theorem getDependencies_excludes_entrypoints_witness :
    ("a" ∈ (["a"] : List String) ∧
      "a" ∉ getDependencies ([] : List (String × List String)) ["a"]) ∧
    getDependencies ([] : List (String × List String)) ["a"] = [] := by
  have h := getDependencies_excludes_entrypoints_and_empty_without_paths
    ([] : List (String × List String)) ["a"]
  refine ⟨⟨by decide, h.1 "a" (by decide)⟩, h.2 ?_⟩
  intro s hs t htg
  induction htg with
  | single hedge => simp [hasEdge, succsOf, mapGet] at hedge
  | tail h1 hedge ih => simp [hasEdge, succsOf, mapGet] at hedge

/-- C3: `manyWalkDfs` yields each node at most once (one shared visited set
across all entrypoint walks, cycles included), and the set of yielded nodes is
exactly the set of nodes reachable from the entrypoints, the entrypoints
themselves included. -/
theorem manyWalkDfs_yields_reachable_without_duplicates
    (edges : List (T × List T)) (entrypoints : List T) :
    (manyWalkDfs edges entrypoints).Nodup ∧
    ∀ x, x ∈ manyWalkDfs edges entrypoints ↔
      ∃ e ∈ entrypoints, Relation.ReflTransGen (hasEdge edges) e x :=
  manyWalkDfs_spec edges entrypoints

/-- C4: transposing a graph twice yields a graph with exactly the same set of
directed edge pairs, and hence (for an edge map with unique keys, as a JS
`Map` always has) the same reachability relation. -/
theorem transpose_transpose_same_pairs_and_reach (m : List (T × List T)) :
    (∀ p : T × T, p ∈ edgePairs (transpose (transpose m)) ↔ p ∈ edgePairs m) ∧
    ((keysOf m).Nodup →
      ∀ a b : T, Relation.ReflTransGen (hasEdge (transpose (transpose m))) a b ↔
        Relation.ReflTransGen (hasEdge m) a b) := by
  have hpairs : ∀ p : T × T,
      p ∈ edgePairs (transpose (transpose m)) ↔ p ∈ edgePairs m := by
    intro p
    rw [mem_edgePairs_transpose, mem_edgePairs_transpose]
  refine ⟨hpairs, fun hnd a b => ?_⟩
  refine reflTransGen_congr (fun a b => ?_)
  rw [hasEdge_iff_edgePairs (keysOf_transpose_nodup _), hasEdge_iff_edgePairs hnd,
    hpairs]

/-- Witness for C4 at a concrete input. -/
theorem transpose_transpose_same_pairs_and_reach_witness :
    (keysOf ([("a", ["b"])] : List (String × List String))).Nodup ∧
    (Relation.ReflTransGen
        (hasEdge (transpose (transpose ([("a", ["b"])] : List (String × List String)))))
        "a" "b" ↔
      Relation.ReflTransGen (hasEdge ([("a", ["b"])] : List (String × List String)))
        "a" "b") :=
  ⟨by decide, (transpose_transpose_same_pairs_and_reach _).2 (by decide) "a" "b"⟩

/-- Absolute file path; identity is exact string equality. -/
abbrev Path := String

/-- Outcome of one `resolver.resolveSync` call: `enhanced-resolve` may throw,
or succeed with no resolved path (a falsy result, `none` here), or return a
path. -/
inductive ResolveOutcome where
  | threw (msg : String)
  | ok (resolved : Option Path)

/-- Cascade of `DependencyTree.resolveAndCollect` for one reference string:
a built-in module name is ignored; otherwise the injected resolver is asked,
scoped to the directory of the referencing file; a truthy resolved path is
added to the imported set; a thrown error is caught and, like a falsy result,
falls through to the missing branch, which records a truthy reference string
in the missing map under the referencing file's key. -/
def resolveAndCollectStr (builtinModules : List String) (dirname : Path → Path)
    (resolveSync : Path → String → ResolveOutcome) (file : Path)
    (referencedModule : String) (importedModules : List Path)
    (missingModules : List (Path × List Path)) :
    List Path × List (Path × List Path) :=
  if referencedModule ∈ builtinModules then
    (importedModules, missingModules)
  else
    let fallThrough :=
      if referencedModule ≠ "" then
        (importedModules, mapAddEdge missingModules file referencedModule)
      else (importedModules, missingModules)
    match resolveSync (dirname file) referencedModule with
    | .ok (some resolved) =>
        if resolved ≠ "" then (setAdd importedModules resolved, missingModules)
        else fallThrough
    | .ok none => fallThrough
    | .threw _ => fallThrough

/-- A reference as passed to `resolveAndCollect`: `string[] | string`. -/
inductive Ref where
  | single (s : String)
  | multi (refs : List String)

/-- `DependencyTree.resolveAndCollect`: an array of references is recursed
over element by element, each element going through the single-string
cascade. -/
def resolveAndCollect (builtinModules : List String) (dirname : Path → Path)
    (resolveSync : Path → String → ResolveOutcome) (file : Path) :
    Ref → List Path → List (Path × List Path) → List Path × List (Path × List Path)
  | .single s, imp, mis =>
      resolveAndCollectStr builtinModules dirname resolveSync file s imp mis
  | .multi refs, imp, mis =>
      refs.foldl (fun acc m =>
        resolveAndCollectStr builtinModules dirname resolveSync file m acc.1 acc.2)
        (imp, mis)

/-- C5: a non-built-in, non-empty reference for which the resolver throws or
returns no resolved path does not abort the pass: the exact reference string
is recorded verbatim in the missing map under the referencing file's key, the
imported set is unchanged, and the remaining sibling references of the same
file are processed exactly as they would be from the state with that missing
entry added; a thrown error and a success with no resolved path yield the one
and the same result. -/
theorem resolveAndCollect_failure_records_missing
    (builtinModules : List String) (dirname : Path → Path)
    (resolveSync : Path → String → ResolveOutcome) (file : Path) (s : String)
    (imp : List Path) (mis : List (Path × List Path)) (rest : List String)
    (hnb : s ∉ builtinModules) (hne : s ≠ "")
    (hfail : (∃ msg, resolveSync (dirname file) s = .threw msg) ∨
      resolveSync (dirname file) s = .ok none) :
    resolveAndCollect builtinModules dirname resolveSync file (.single s) imp mis =
      (imp, mapAddEdge mis file s) ∧
    s ∈ (mapGet (mapAddEdge mis file s) file).getD [] ∧
    resolveAndCollect builtinModules dirname resolveSync file
        (.multi (s :: rest)) imp mis =
      resolveAndCollect builtinModules dirname resolveSync file (.multi rest) imp
        (mapAddEdge mis file s) := by
  have hstr : resolveAndCollectStr builtinModules dirname resolveSync file s imp mis =
      (imp, mapAddEdge mis file s) := by
    rcases hfail with ⟨msg, hmsg⟩ | hnone
    · simp [resolveAndCollectStr, hnb, hmsg, hne]
    · simp [resolveAndCollectStr, hnb, hnone, hne]
  refine ⟨hstr, ?_, ?_⟩
  · rw [mapGet_mapAddEdge_self]
    simp [mem_setAdd]
  · simp only [resolveAndCollect, List.foldl_cons, hstr]

/-- Witness for C5 at a concrete input: a throwing resolver. -/
theorem resolveAndCollect_failure_records_missing_witness :
    "./x" ∉ (["fs"] : List String) ∧
    resolveAndCollect ["fs"] id (fun _ _ => .threw "boom") "/a/f.ts"
      (.single "./x") [] [] = ([], [("/a/f.ts", ["./x"])]) := by
  have h := resolveAndCollect_failure_records_missing ["fs"] id
    (fun _ _ => .threw "boom") "/a/f.ts" "./x" [] [] [] (by decide)
    (by decide) (Or.inl ⟨"boom", rfl⟩)
  exact ⟨by decide, by rw [h.1]; rfl⟩

/-- C6: a reference naming a recognized built-in module is dropped silently:
the imported set and the missing map come back unchanged, and the resolver is
never consulted for it (the result is the same under every resolver). -/
theorem resolveAndCollect_builtin_dropped
    (builtinModules : List String) (dirname : Path → Path)
    (resolveSync : Path → String → ResolveOutcome) (file : Path) (s : String)
    (imp : List Path) (mis : List (Path × List Path))
    (h : s ∈ builtinModules) :
    resolveAndCollect builtinModules dirname resolveSync file (.single s) imp mis =
      (imp, mis) ∧
    ∀ resolveSync2 : Path → String → ResolveOutcome,
      resolveAndCollect builtinModules dirname resolveSync2 file (.single s) imp mis =
        resolveAndCollect builtinModules dirname resolveSync file (.single s) imp
          mis := by
  refine ⟨by simp [resolveAndCollect, resolveAndCollectStr, h], fun r2 => ?_⟩
  simp [resolveAndCollect, resolveAndCollectStr, h]

/-- Witness for C6 at a concrete input. -/
theorem resolveAndCollect_builtin_dropped_witness :
    "path" ∈ ["path", "fs"] ∧
    resolveAndCollect ["path", "fs"] id (fun _ _ => .threw "boom") "/src/a.ts"
      (.single "path") [] [] = ([], []) :=
  ⟨by decide, (resolveAndCollect_builtin_dropped ["path", "fs"] id
      (fun _ _ => .threw "boom") "/src/a.ts" "path" [] [] (by decide)).1⟩

/-- C10: an empty reference string never records an entry in the missing map,
whatever the built-in list holds and whatever the resolver does: the
`if (referencedModule)` guard filters the falsy empty string out of the
missing branch. -/
theorem resolveAndCollect_empty_reference_never_missing
    (builtinModules : List String) (dirname : Path → Path)
    (resolveSync : Path → String → ResolveOutcome) (file : Path)
    (imp : List Path) (mis : List (Path × List Path)) :
    (resolveAndCollect builtinModules dirname resolveSync file
      (.single "") imp mis).2 = mis := by
  by_cases hb : "" ∈ builtinModules
  · simp [resolveAndCollect, resolveAndCollectStr, hb]
  · rcases hr : resolveSync (dirname file) "" with msg | ores
    · simp [resolveAndCollect, resolveAndCollectStr, hb, hr]
    · rcases ores with _ | res
      · simp [resolveAndCollect, resolveAndCollectStr, hb, hr]
      · by_cases hres : res = ""
        · simp [resolveAndCollect, resolveAndCollectStr, hb, hr, hres]
        · simp [resolveAndCollect, resolveAndCollectStr, hb, hr, hres]

/-- A file processor as registered with the `DependencyTree`: the `match`
predicate and the `process` step, which receives the file, its contents, the
list of all discovered files and the shared missing map, and returns the
reported set of imported files together with the updated missing map (the
source mutates the missing map it is handed). -/
structure FileProcessor where
  matchFile : Path → Bool
  process : Path → String → List Path → List (Path × List Path) →
    List Path × List (Path × List Path)

/-- `DependencyTree.getImportedFiles`: reads the contents once, runs every
processor whose `match` accepts the file, folds each reported set into
`allImported`, and fails when no processor matched the file. -/
def getImportedFiles (fileProcessors : List FileProcessor)
    (readFile : Path → String) (file : Path) (missing : List (Path × List Path))
    (files : List Path) : Except String (List Path × List (Path × List Path)) :=
  let contents := readFile file
  let r := fileProcessors.foldl
    (fun (acc : List Path × List (Path × List Path) × Bool) fp =>
      if fp.matchFile file then
        let pr := fp.process file contents files acc.2.1
        (pr.1.foldl setAdd acc.1, pr.2, true)
      else acc)
    ([], missing, false)
  if r.2.2 then .ok (r.1, r.2.1)
  else .error ("No file processor matches " ++ file)

/-- Loop of `DependencyTree.gather`: for each discovered file, in order, the
imported files are computed and `fileToDeps.set(file, importedFiles)` is
performed, unconditionally; a processing error aborts the whole run. -/
def gatherLoop (fileProcessors : List FileProcessor) (readFile : Path → String)
    (files : List Path) :
    List Path → List (Path × List Path) → List (Path × List Path) →
    Except String (List (Path × List Path) × List (Path × List Path))
  | [], fileToDeps, missing => .ok (missing, fileToDeps)
  | f :: rest, fileToDeps, missing =>
      match getImportedFiles fileProcessors readFile f missing files with
      | .error e => .error e
      | .ok (importedFiles, missing2) =>
          gatherLoop fileProcessors readFile files rest
            (mapSet fileToDeps f importedFiles) missing2

/-- `DependencyTree.gather`: walks through all found files (file discovery is
injected here as the `files` list) and builds the missing and resolved maps
from two initially empty accumulators. -/
def gather (fileProcessors : List FileProcessor) (readFile : Path → String)
    (files : List Path) :
    Except String (List (Path × List Path) × List (Path × List Path)) :=
  gatherLoop fileProcessors readFile files files [] []

theorem mapGet_mapSet_self (m : List (Path × List Path)) (k : Path)
    (v : List Path) : mapGet (mapSet m k v) k = some v := by
  induction m with
  | nil => simp [mapSet, mapGet]
  | cons p rest ih =>
      obtain ⟨k2, s⟩ := p
      by_cases h : k2 = k
      · subst h; simp [mapSet, mapGet]
      · simp [mapSet, mapGet, h, ih]

theorem mapGet_mapSet_isSome {m : List (Path × List Path)} {f k : Path}
    {v : List Path} (h : (mapGet m f).isSome) :
    (mapGet (mapSet m k v) f).isSome := by
  induction m with
  | nil => simp [mapGet] at h
  | cons p rest ih =>
      obtain ⟨k2, s⟩ := p
      by_cases h2 : k2 = k
      · subst h2
        by_cases h3 : k2 = f <;> simp_all [mapSet, mapGet]
      · by_cases h3 : k2 = f <;> simp_all [mapSet, mapGet]

theorem gatherLoop_keys {fileProcessors : List FileProcessor}
    {readFile : Path → String} {files : List Path} :
    ∀ (rem : List Path) (ftd mis missing resolved : List (Path × List Path)),
      gatherLoop fileProcessors readFile files rem ftd mis =
        .ok (missing, resolved) →
      ∀ f : Path, (f ∈ rem ∨ (mapGet ftd f).isSome) →
        (mapGet resolved f).isSome := by
  intro rem
  induction rem with
  | nil =>
      intro ftd mis missing resolved heq f hf
      rw [gatherLoop] at heq
      injection heq with heq
      obtain ⟨rfl, rfl⟩ := Prod.mk.injEq .. ▸ heq
      rcases hf with h | h
      · cases h
      · exact h
  | cons g rest ih =>
      intro ftd mis missing resolved heq f hf
      rw [gatherLoop] at heq
      rcases hgi : getImportedFiles fileProcessors readFile g mis files with e | pr
      · rw [hgi] at heq; cases heq
      · obtain ⟨imp, mis2⟩ := pr
        rw [hgi] at heq
        refine ih _ _ _ _ heq f ?_
        rcases hf with hf | hf
        · rcases List.mem_cons.mp hf with rfl | hf
          · right
            rw [mapGet_mapSet_self]
            rfl
          · exact Or.inl hf
        · exact Or.inr (mapGet_mapSet_isSome hf)

/-- C8: on every run of `gather` that completes without a fatal error, every
discovered file appears as a key in the returned resolved map (files with no
dependencies included, their value being the empty set): the loop performs
`fileToDeps.set(file, importedFiles)` for every file unconditionally. -/
theorem gather_resolved_has_every_file (fileProcessors : List FileProcessor)
    (readFile : Path → String) (files : List Path)
    (missing resolved : List (Path × List Path))
    (heq : gather fileProcessors readFile files = .ok (missing, resolved))
    (f : Path) (hf : f ∈ files) : ∃ s, mapGet resolved f = some s := by
  have h := gatherLoop_keys files [] [] missing resolved heq f (Or.inl hf)
  exact Option.isSome_iff_exists.mp h

/-- Witness for C8 at a concrete input: a one-file tree whose only processor
reports no dependencies; the file still appears, with the empty set. -/
theorem gather_resolved_has_every_file_witness :
    gather [⟨fun _ => true, fun _ _ _ mis => ([], mis)⟩] (fun _ => "")
      ["/a.ts"] = .ok ([], [("/a.ts", [])]) ∧
    "/a.ts" ∈ ["/a.ts"] ∧ ∃ s, mapGet [("/a.ts", [])] "/a.ts" = some s :=
  ⟨rfl, by decide,
    gather_resolved_has_every_file [⟨fun _ => true, fun _ _ _ mis => ([], mis)⟩]
      (fun _ => "") ["/a.ts"] [] [("/a.ts", [])] rfl "/a.ts" (by decide)⟩

/-- Splits a list into contiguous batches of at most `n` elements. -/
def chunkList (n : Nat) (l : List Path) : List (List Path) :=
  if h : l = [] ∨ n = 0 then [] else l.take n :: chunkList n (l.drop n)
  termination_by l.length
  decreasing_by
    push_neg at h
    obtain ⟨hl, hn⟩ := h
    simp only [List.length_drop]
    exact Nat.sub_lt (List.length_pos.mpr hl) (Nat.pos_of_ne_zero hn)

/-- Modelled from the spec: the published `gather` accepts an options object
with a `batchSize` field (the repository's tests call
`gather({ batchSize })`, but the sources available here contain only the
sequential driving loop, so the batch handling itself is missing from them).
Per the spec, a batch size below 1 is rejected with an invalid-argument error
before any file is read, and otherwise the discovered files are processed in
batches of at most `batchSize` cooperative tasks whose merged contributions
must equal the sequential result, concurrency never changing the content of
the maps. -/
def gatherWithOptions (fileProcessors : List FileProcessor)
    (readFile : Path → String) (files : List Path) (batchSize : Int) :
    Except String (List (Path × List Path) × List (Path × List Path)) :=
  if batchSize < 1 then .error "batchSize must be a positive integer"
  else
    (chunkList batchSize.toNat files).foldl
      (fun acc batch =>
        match acc with
        | .error e => .error e
        | .ok (missing, fileToDeps) =>
            gatherLoop fileProcessors readFile files batch fileToDeps missing)
      (.ok ([], []))

theorem gatherLoop_append {fileProcessors : List FileProcessor}
    {readFile : Path → String} {files : List Path} :
    ∀ (l1 l2 : List Path) (ftd mis : List (Path × List Path)),
      gatherLoop fileProcessors readFile files (l1 ++ l2) ftd mis =
        match gatherLoop fileProcessors readFile files l1 ftd mis with
        | .error e => .error e
        | .ok (missing, resolved) =>
            gatherLoop fileProcessors readFile files l2 resolved missing := by
  intro l1
  induction l1 with
  | nil => intro l2 ftd mis; rfl
  | cons g rest ih =>
      intro l2 ftd mis
      simp only [List.cons_append, gatherLoop]
      rcases getImportedFiles fileProcessors readFile g mis files with e | pr
      · rfl
      · obtain ⟨imp, mis2⟩ := pr
        exact ih l2 _ _

theorem foldl_gatherBatches_error {fileProcessors : List FileProcessor}
    {readFile : Path → String} {files : List Path} (bs : List (List Path))
    (e : String) :
    bs.foldl
      (fun acc batch =>
        match acc with
        | .error e => .error e
        | .ok (missing, fileToDeps) =>
            gatherLoop fileProcessors readFile files batch fileToDeps missing)
      (Except.error e) = Except.error e := by
  induction bs with
  | nil => rfl
  | cons b rest ih => simpa using ih

theorem chunkList_fold_eq_gatherLoop {fileProcessors : List FileProcessor}
    {readFile : Path → String} {files : List Path} :
    ∀ (n : Nat) (l : List Path) (ftd mis : List (Path × List Path)), n ≠ 0 →
      (chunkList n l).foldl
        (fun acc batch =>
          match acc with
          | .error e => .error e
          | .ok (missing, fileToDeps) =>
              gatherLoop fileProcessors readFile files batch fileToDeps missing)
        (Except.ok (mis, ftd)) = gatherLoop fileProcessors readFile files l ftd mis := by
  intro n l
  induction l using chunkList.induct n with
  | case1 l h =>
      intro ftd mis hn
      rcases h with rfl | rfl
      · rw [chunkList]
        simp [gatherLoop]
      · exact absurd rfl hn
  | case2 l h ih =>
      intro ftd mis hn
      rw [chunkList, dif_neg h]
      simp only [List.foldl_cons]
      have hsplit := @gatherLoop_append fileProcessors readFile files
        (l.take n) (l.drop n) ftd mis
      rw [List.take_append_drop] at hsplit
      rcases hloop : gatherLoop fileProcessors readFile files (l.take n) ftd mis
        with e | pr
      · rw [hsplit, hloop]
        exact foldl_gatherBatches_error _ _
      · obtain ⟨m2, r2⟩ := pr
        rw [hsplit, hloop]
        exact ih r2 m2 hn

/-- C7: `gather` with options fails with an invalid-argument error whenever
`batchSize < 1`, before any file is read (the result does not depend on the
file reader or the file list), and every batch size of at least 1 yields maps
identical to the sequential run. -/
theorem gather_batchSize_contract (fileProcessors : List FileProcessor)
    (readFile : Path → String) (files : List Path) (batchSize : Int) :
    (batchSize < 1 →
      ∀ (readFile2 : Path → String) (files2 : List Path),
        gatherWithOptions fileProcessors readFile2 files2 batchSize =
          .error "batchSize must be a positive integer") ∧
    (1 ≤ batchSize →
      gatherWithOptions fileProcessors readFile files batchSize =
        gather fileProcessors readFile files) := by
  constructor
  · intro h readFile2 files2
    simp [gatherWithOptions, h]
  · intro h
    have hlt : ¬batchSize < 1 := by omega
    have hn : batchSize.toNat ≠ 0 := by omega
    rw [gatherWithOptions, if_neg hlt, gather]
    exact chunkList_fold_eq_gatherLoop _ _ _ _ hn

/-- Witness for C7 at concrete inputs: batch size -1 is rejected; batch size 2
on a two-file tree equals the sequential run. -/
theorem gather_batchSize_contract_witness :
    ((-1 : Int) < 1 ∧
      gatherWithOptions [⟨fun _ => true, fun _ _ _ mis => ([], mis)⟩]
        (fun _ => "") ["/a.ts"] (-1) =
        .error "batchSize must be a positive integer") ∧
    ((1 : Int) ≤ 2 ∧
      gatherWithOptions [⟨fun _ => true, fun _ _ _ mis => ([], mis)⟩]
        (fun _ => "") ["/a.ts", "/b.ts"] 2 =
        gather [⟨fun _ => true, fun _ _ _ mis => ([], mis)⟩] (fun _ => "")
          ["/a.ts", "/b.ts"]) :=
  ⟨⟨by decide,
      (gather_batchSize_contract [⟨fun _ => true, fun _ _ _ mis => ([], mis)⟩]
        (fun _ => "") ["/a.ts"] (-1)).1 (by decide) _ _⟩,
    ⟨by decide,
      (gather_batchSize_contract [⟨fun _ => true, fun _ _ _ mis => ([], mis)⟩]
        (fun _ => "") ["/a.ts", "/b.ts"] 2).2 (by decide)⟩⟩

/-- Character-level length of a string, mirroring JS `length`. -/
def strLen (s : String) : Nat := s.data.length

/-- JS `content.slice(0, n)` at the character level. -/
def strTake (s : String) (n : Nat) : String := String.mk (s.data.take n)

/-- JS `content.slice(n)` at the character level. -/
def strDrop (s : String) (n : Nat) : String := String.mk (s.data.drop n)

theorem strDrop_zero (s : String) : strDrop s 0 = s := by
  cases s
  simp [strDrop]

/-- JS `content.split('\n')` at the character level. -/
def splitLines : List Char → List (List Char)
  | [] => [[]]
  | c :: rest =>
      match splitLines rest with
      | [] => [[c]]
      | l :: ls => if c = '\n' then [] :: l :: ls else (c :: l) :: ls

/-- Number of occurrences of a character in a character list. -/
def countChar (a : Char) : List Char → Nat
  | [] => 0
  | c :: rest => (if c = a then 1 else 0) + countChar a rest

/-- Number of newline characters in a string. -/
def countNewlines (s : String) : Nat := countChar '\n' s.data

theorem countChar_eq_zero_iff {a : Char} {l : List Char} :
    countChar a l = 0 ↔ a ∉ l := by
  induction l with
  | nil => simp [countChar]
  | cons c rest ih =>
      rw [countChar]
      by_cases hc : c = a
      · subst hc
        simp
      · simp [hc, ih, Ne.symm hc]

/-- The trailing partial line of a piece of content: the suffix after the
last newline character (the whole content when it has no newline). -/
def trailingLineChars : List Char → List Char
  | [] => []
  | c :: rest =>
      if c = '\n' ∨ '\n' ∈ rest then trailingLineChars rest else c :: rest

/-- `DirectiveProcessor.getNextSymbolPosition`: splits the preceding content on
newlines and returns `[m.length, (m.pop()?.length || 0) + 1]`, the 1-based
line and column right after that content. -/
def getNextSymbolPosition (content : String) : Nat × Nat :=
  let m := splitLines content.data
  (m.length, (m.getLastD []).length + 1)

theorem splitLines_ne_nil (l : List Char) : splitLines l ≠ [] := by
  cases l with
  | nil => simp [splitLines]
  | cons c rest =>
      rw [splitLines]
      rcases h : splitLines rest with _ | ⟨a, as⟩
      · simp
      · by_cases hc : c = '\n' <;> simp [hc]

theorem splitLines_cons_newline {rest : List Char} :
    splitLines ('\n' :: rest) = [] :: splitLines rest := by
  rw [splitLines]
  rcases h : splitLines rest with _ | ⟨a, as⟩
  · exact absurd h (splitLines_ne_nil rest)
  · simp

theorem splitLines_cons_other {c : Char} {rest : List Char} {a : List Char}
    {as : List (List Char)} (hc : c ≠ '\n') (h : splitLines rest = a :: as) :
    splitLines (c :: rest) = (c :: a) :: as := by
  rw [splitLines, h]
  simp [hc]

theorem splitLines_length (l : List Char) :
    (splitLines l).length = countChar '\n' l + 1 := by
  induction l with
  | nil => simp [splitLines, countChar]
  | cons c rest ih =>
      rw [countChar]
      by_cases hc : c = '\n'
      · subst hc
        rw [splitLines_cons_newline, if_pos rfl]
        simp only [List.length_cons]
        omega
      · rcases h : splitLines rest with _ | ⟨a, as⟩
        · exact absurd h (splitLines_ne_nil rest)
        · rw [h] at ih
          rw [splitLines_cons_other hc h, if_neg hc]
          simp only [List.length_cons] at ih ⊢
          omega

theorem splitLines_no_newline {l : List Char} (h : '\n' ∉ l) :
    splitLines l = [l] := by
  induction l with
  | nil => simp [splitLines]
  | cons c rest ih =>
      have hc : c ≠ '\n' := fun hc => h (hc ▸ List.mem_cons_self _ _)
      have hrest : '\n' ∉ rest := fun hr => h (List.mem_cons_of_mem _ hr)
      rw [splitLines, ih hrest]
      simp [hc]

theorem trailingLineChars_no_newline {l : List Char} (h : '\n' ∉ l) :
    trailingLineChars l = l := by
  induction l with
  | nil => rfl
  | cons c rest ih =>
      have hc : c ≠ '\n' := fun hc => h (hc ▸ List.mem_cons_self _ _)
      have hrest : '\n' ∉ rest := fun hr => h (List.mem_cons_of_mem _ hr)
      rw [trailingLineChars, if_neg (by tauto)]

theorem splitLines_count {l : List Char} {a : List Char} {as : List (List Char)}
    (h : splitLines l = a :: as) : countChar '\n' l = as.length := by
  have h2 := splitLines_length l
  rw [h] at h2
  simp only [List.length_cons] at h2
  omega

theorem splitLines_getLastD (l : List Char) :
    (splitLines l).getLastD [] = trailingLineChars l := by
  induction l with
  | nil => simp [splitLines, trailingLineChars]
  | cons c rest ih =>
      rw [trailingLineChars]
      by_cases hc : c = '\n'
      · subst hc
        rw [splitLines_cons_newline, if_pos (Or.inl rfl)]
        rcases h : splitLines rest with _ | ⟨a, as⟩
        · exact absurd h (splitLines_ne_nil rest)
        · rw [h] at ih
          rw [List.getLastD_cons, ← ih]
      · rcases h : splitLines rest with _ | ⟨a, as⟩
        · exact absurd h (splitLines_ne_nil rest)
        · rw [h] at ih
          rw [splitLines_cons_other hc h]
          rcases has : as with _ | ⟨b, bs⟩
          · subst has
            have hnl : '\n' ∉ rest := countChar_eq_zero_iff.mp (splitLines_count h)
            rw [if_neg (by tauto), List.getLastD_cons]
            rw [trailingLineChars_no_newline hnl] at ih
            have ha : a = rest := by simpa using ih
            simp [ha]
          · subst has
            have hnl : '\n' ∈ rest := by
              by_contra hn
              have h2 := splitLines_count h
              rw [countChar_eq_zero_iff.mpr hn] at h2
              simp at h2
            rw [if_pos (Or.inr hnl), List.getLastD_cons, ← ih,
              List.getLastD_cons, List.getLastD_cons, List.getLastD_cons]

/-- Position right after a prefix of the content: the line is 1 plus the
number of newlines in the prefix, the column the length of its trailing
partial line plus one. -/
theorem getNextSymbolPosition_eq (content : String) :
    getNextSymbolPosition content =
      (countNewlines content + 1,
        (trailingLineChars content.data).length + 1) := by
  unfold getNextSymbolPosition countNewlines
  simp only [splitLines_length, splitLines_getLastD]

/-- One successful match of the scanner's `reNext` regular expression against
the remainder of the content: `matched` is the full matched text `m[0]`,
`bodyGroup` and `errorGroup` are the two optional named capture groups
(`body` and the malformed-opening group).  The regular-expression engine is an
external library, so the matcher is a parameter of the model. -/
structure ScanMatch where
  matched : String
  bodyGroup : Option String
  errorGroup : Option String

/-- JS truthiness of an optional string capture: an absent group and the
empty string are both falsy. -/
def truthy : Option String → Option String
  | none => none
  | some s => if strLen s = 0 then none else some s

/-- `DirectiveProcessor.allowedAttributes`: the attribute names permitted on a
directive, already camel-cased by the XML parsing pipeline. -/
def allowedAttributes : List String := ["dependsOn"]

/-- `DirectiveProcessor.assertDirective`: rejects a payload that is not an
object (`attributes` is absent when the element carries none, modelled by
`none`), then throws on the first attribute key that is not allowed, naming
the offending key in the message. -/
def assertDirective : Option (List (String × String)) →
    Except String (List (String × String))
  | none => .error "Unexpected type: undefined"
  | some attrs =>
      match attrs.find? (fun kv => !(allowedAttributes.contains kv.1)) with
      | some kv => .error ("Unknown attribute: \x27" ++ kv.1 ++ "\x27")
      | none => .ok attrs

/-- Whether the first list is a prefix of the second. -/
def isPrefixList : List Char → List Char → Bool
  | [], _ => true
  | _ :: _, [] => false
  | a :: as, b :: bs => a = b && isPrefixList as bs

/-- Index of the first occurrence of `pat`, on character lists. -/
def indexOfAux (pat : List Char) : List Char → Nat
  | [] => 0
  | c :: t => if isPrefixList pat (c :: t) then 0 else indexOfAux pat t + 1

/-- JS `fullMatch.indexOf(groupMatch)` as the scanner uses it: the position of
the first occurrence of `pat` in `s`.  The searched group is always a
substring of the full match there, so the JS not-found value `-1` never
arises. -/
def strIndexOf (s pat : String) : Nat := indexOfAux pat.data s.data

/-- The errors the directive scanner raises, each carrying the message, the
original file content, the file path, and the 1-based line and column numbers
(the payload of `DirectiveProcessorError`); `scanError` models
`DirectiveProcessorSyntaxError`, raised on a malformed opening. -/
inductive DirectiveError where
  | parseError (msg content fileName : String)
      (lineNumber columnNumber : Nat)
  | validationError (msg content fileName : String)
      (lineNumber columnNumber : Nat)
  | scanError (content fileName : String) (lineNumber columnNumber : Nat)

/-- Loop of `DirectiveProcessor.getDirectives`: repeatedly matches `reNext`
(abstracted as `step`) against the content sliced from the cursor; the cursor
advances by the full match's length.  A truthy `body` group is stripped of
continuation tokens and parsed as a single XML element (both folded into the
external `parseBody`), validated with `assertDirective` and collected; a
parse failure or an unknown attribute raises with the position computed by
`getNextSymbolPosition` over
`content.slice(0, lastIndex - fullMatch.length + fullMatch.indexOf(group))`;
a truthy malformed-opening group raises a syntax error the same way; any
other match is skipped.  The fuel argument only bounds the iteration count:
`content.length + 1` iterations are enough for every matcher that consumes at
least one character per match, as the real regular expression does. -/
def getDirectivesAux (step : String → Option ScanMatch)
    (parseBody : String → Except String (Option (List (String × String))))
    (content : String) (filePath : Path) :
    Nat → Nat → List (List (String × String)) →
    Except DirectiveError (List (List (String × String)))
  | 0, _, directives => .ok directives
  | fuel + 1, lastIndex, directives =>
      match step (strDrop content lastIndex) with
      | none => .ok directives
      | some m =>
          let lastIndex2 := lastIndex + strLen m.matched
          let errorPayload := fun (groupMatch : String) =>
            getNextSymbolPosition
              (strTake content
                (lastIndex2 - strLen m.matched + strIndexOf m.matched groupMatch))
          match truthy m.bodyGroup with
          | some body =>
              match parseBody body with
              | .error e =>
                  .error (.parseError e content filePath (errorPayload body).1
                    (errorPayload body).2)
              | .ok attributes =>
                  match assertDirective attributes with
                  | .error e =>
                      .error (.validationError e content filePath
                        (errorPayload body).1 (errorPayload body).2)
                  | .ok d =>
                      getDirectivesAux step parseBody content filePath fuel
                        lastIndex2 (directives ++ [d])
          | none =>
              match truthy m.errorGroup with
              | some se =>
                  .error (.scanError content filePath (errorPayload se).1
                    (errorPayload se).2)
              | none =>
                  getDirectivesAux step parseBody content filePath fuel
                    lastIndex2 directives

/-- `DirectiveProcessor.getDirectives`: runs the scanner loop over the whole
content from position 0 with an empty accumulator. -/
def getDirectives (step : String → Option ScanMatch)
    (parseBody : String → Except String (Option (List (String × String))))
    (content : String) (filePath : Path) :
    Except DirectiveError (List (List (String × String))) :=
  getDirectivesAux step parseBody content filePath (strLen content + 1) 0 []

/-- Cursor positions the scanner loop reaches on `content`: position 0, and
the position past any match that was either uninteresting (no truthy group)
or a valid directive. -/
inductive ScanSteps (step : String → Option ScanMatch)
    (parseBody : String → Except String (Option (List (String × String))))
    (content : String) : Nat → Prop
  | start : ScanSteps step parseBody content 0
  | skip {i : Nat} {m : ScanMatch} :
      ScanSteps step parseBody content i →
      step (strDrop content i) = some m →
      truthy m.bodyGroup = none → truthy m.errorGroup = none →
      ScanSteps step parseBody content (i + strLen m.matched)
  | valid {i : Nat} {m : ScanMatch} {body : String}
      {attrs : Option (List (String × String))} {d : List (String × String)} :
      ScanSteps step parseBody content i →
      step (strDrop content i) = some m →
      truthy m.bodyGroup = some body →
      parseBody body = .ok attrs → assertDirective attrs = .ok d →
      ScanSteps step parseBody content (i + strLen m.matched)

theorem strLen_strDrop (content : String) (i : Nat) :
    strLen (strDrop content i) = strLen content - i := by
  simp [strLen, strDrop]

/-- Transport along the scanner trajectory: whatever error the loop produces
from a reachable cursor position (with enough fuel, for a matcher that always
consumes at least one character), it also produces from the start. -/
theorem getDirectivesAux_error_of_scanSteps
    {step : String → Option ScanMatch}
    {parseBody : String → Except String (Option (List (String × String)))}
    {content filePath : String} {E : DirectiveError}
    (hprog : ∀ s sm, step s = some sm →
      1 ≤ strLen sm.matched ∧ strLen sm.matched ≤ strLen s)
    {i : Nat} (hscan : ScanSteps step parseBody content i)
    (hE : ∀ (fuel : Nat) (acc : List (List (String × String))),
      strLen content - i < fuel →
      getDirectivesAux step parseBody content filePath fuel i acc = .error E) :
    getDirectives step parseBody content filePath = .error E := by
  induction hscan with
  | start => exact hE _ [] (by omega)
  | @skip i m hsteps hm hb he ih =>
      refine ih ?_
      intro fuel acc hfuel
      obtain ⟨hl1, hl2⟩ := hprog _ _ hm
      rw [strLen_strDrop] at hl2
      cases fuel with
      | zero => omega
      | succ f =>
          rw [getDirectivesAux, hm]
          simp only [hb, he]
          exact hE f acc (by omega)
  | @valid i m body attrs d hsteps hm hb hp hd ih =>
      refine ih ?_
      intro fuel acc hfuel
      obtain ⟨hl1, hl2⟩ := hprog _ _ hm
      rw [strLen_strDrop] at hl2
      cases fuel with
      | zero => omega
      | succ f =>
          rw [getDirectivesAux, hm]
          simp only [hb, hp, hd]
          exact hE f _ (by omega)

/-- C9: when the scanner reaches a well-formed directive element whose parsed
attributes contain a key other than the one allowed, `getDirectives` raises a
validation error whose message names the (first) offending attribute key,
annotated with the file path and a 1-based line and column: the line is 1
plus the number of newline characters in the content preceding the directive
body, the column the length of the trailing partial line plus 1. -/
theorem getDirectives_unknown_attribute_validation_error
    (step : String → Option ScanMatch)
    (parseBody : String → Except String (Option (List (String × String))))
    (content filePath : String) (i : Nat) (m : ScanMatch) (body : String)
    (attrs : List (String × String)) (k v : String)
    (hprog : ∀ s sm, step s = some sm →
      1 ≤ strLen sm.matched ∧ strLen sm.matched ≤ strLen s)
    (hscan : ScanSteps step parseBody content i)
    (hm : step (strDrop content i) = some m)
    (hb : truthy m.bodyGroup = some body)
    (hp : parseBody body = .ok (some attrs))
    (hbad : attrs.find? (fun kv => !(allowedAttributes.contains kv.1)) =
      some (k, v)) :
    getDirectives step parseBody content filePath =
      .error (.validationError ("Unknown attribute: \x27" ++ k ++ "\x27")
        content filePath
        (countNewlines (strTake content (i + strIndexOf m.matched body)) + 1)
        ((trailingLineChars
            (strTake content (i + strIndexOf m.matched body)).data).length
          + 1)) := by
  apply getDirectivesAux_error_of_scanSteps hprog hscan
  intro fuel acc hfuel
  cases fuel with
  | zero => omega
  | succ f =>
      rw [getDirectivesAux, hm]
      simp only [hb, hp, assertDirective, hbad]
      rw [getNextSymbolPosition_eq]
      simp [Nat.add_sub_cancel]

/-- Witness for C9 at a concrete input: a one-match scanner whose body parses
to a single attribute `k`, which is not allowed. -/
theorem getDirectives_unknown_attribute_validation_error_witness :
    getDirectives
      (fun s => if s = "x" then some ⟨"x", some "b", none⟩ else none)
      (fun s => if s = "b" then .ok (some [("k", "v")]) else .error "e")
      "x" "f" =
      .error (.validationError "Unknown attribute: \x27k\x27" "x" "f" 1 2) := by
  have h := getDirectives_unknown_attribute_validation_error
    (fun s => if s = "x" then some ⟨"x", some "b", none⟩ else none)
    (fun s => if s = "b" then .ok (some [("k", "v")]) else .error "e")
    "x" "f" 0 ⟨"x", some "b", none⟩ "b" [("k", "v")] "k" "v"
    (by
      intro s sm hsm
      by_cases hs : s = "x"
      · subst hs
        simp only [if_pos rfl] at hsm
        cases hsm
        exact ⟨by decide, by decide⟩
      · simp only [if_neg hs] at hsm
        cases hsm)
    ScanSteps.start
    (by rw [strDrop_zero]; simp)
    (by decide)
    (by simp)
    (by decide)
  exact h

end DepTree
